import Mathlib

/-!
# go-web-crawler: the URL classifier and the link handler of `crawler.go`

A shallow embedding of `src/crawler.go`:

* the regular expression of `URLProps.ParseURL`, as a backtracking matcher whose
  alternatives are listed in the priority order of Go's `regexp` package
  (leftmost-first: the match a backtracking search finds first);
* `NewURLProps`, `ParseURL`;
* the `OnHTML` link handler of `main` as a step function on the crawl state, and a run
  as the fold of that step over the discovered links;
* the `sort.Slice` call and the format dispatch of `main`.
-/

set_option maxRecDepth 100000

namespace Crawler

/-! ## Data model -/

/-- The struct `URLProps` (crawler.go, lines 28-35). -/
structure URLProps where
  Url : String
  Protocol : String
  Subdomain : String
  Domain : String
  TLD : String
  Path : String
  deriving DecidableEq, Repr

/-- The constructor `NewURLProps`: only `Url` is set, every other field is the zero value. -/
def NewURLProps (url : String) : URLProps :=
  { Url := url, Protocol := "", Subdomain := "", Domain := "", TLD := "", Path := "" }

/-! ## The regular expression

A matcher maps the remaining input to the list of its ways to match a prefix of it, each
given as (text consumed, input left), in the order a backtracking search tries them. -/

/-- The alternatives of a sub-expression on an input, best first. -/
abbrev Matcher := List Char → List (List Char × List Char)

/-- A single character satisfying `p`: a literal or a character class. -/
def cls (p : Char → Bool) : Matcher
  | [] => []
  | c :: cs => if p c then [([c], cs)] else []

/-- The literal character `c`. -/
def chr (c : Char) : Matcher := cls (fun x => x == c)

/-- Concatenation `ab`: every alternative of `a`, each followed by every alternative of `b`. -/
def seq (a b : Matcher) : Matcher := fun inp =>
  (a inp).flatMap fun x => (b x.2).map fun y => (x.1 ++ y.1, y.2)

/-- The greedy option `a?`: one occurrence is tried before none. -/
def opt (a : Matcher) : Matcher := fun inp => a inp ++ [([], inp)]

/-- The greedy repetition `a*` unrolled at most `n` times: one more occurrence is tried
before stopping. -/
def starN (a : Matcher) : Nat → Matcher
  | 0 => fun inp => [([], inp)]
  | n + 1 => fun inp =>
      ((a inp).flatMap fun x => (starN a n x.2).map fun y => (x.1 ++ y.1, y.2)) ++ [([], inp)]

/-- The greedy repetition `a*` for an `a` that consumes at least one character per
occurrence: there are at most as many occurrences as characters of input. -/
def star (a : Matcher) : Matcher := fun inp => starN a inp.length inp

/-- The greedy repetition `a+`. -/
def plus (a : Matcher) : Matcher := seq a (star a)

/-- The greedy repetition `a{2,}`. -/
def atLeast2 (a : Matcher) : Matcher := seq a (seq a (star a))

/-- The class `[a-zA-Z]`. -/
def isAlpha (c : Char) : Bool :=
  ('a'.toNat ≤ c.toNat && c.toNat ≤ 'z'.toNat) || ('A'.toNat ≤ c.toNat && c.toNat ≤ 'Z'.toNat)

/-- The class `[a-zA-Z0-9-]`. -/
def isLabelChar (c : Char) : Bool :=
  isAlpha c || ('0'.toNat ≤ c.toNat && c.toNat ≤ '9'.toNat) || c == '-'

/-- The class `[a-zA-Z0-9\/._-]`. -/
def isPathChar (c : Char) : Bool :=
  isAlpha c || ('0'.toNat ≤ c.toNat && c.toNat ≤ '9'.toNat) ||
    c == '/' || c == '.' || c == '_' || c == '-'

/-- Group 1 without its `?`: `https?:\/\/`. -/
def protocolRe : Matcher :=
  seq (chr 'h') (seq (chr 't') (seq (chr 't') (seq (chr 'p')
    (seq (opt (chr 's')) (seq (chr ':') (seq (chr '/') (chr '/')))))))

/-- Group 2 without its `?`: `[a-zA-Z0-9-]+\.`. -/
def subdomainRe : Matcher := seq (plus (cls isLabelChar)) (chr '.')

/-- Group 3: `[a-zA-Z0-9-]+`. -/
def domainRe : Matcher := plus (cls isLabelChar)

/-- One TLD label: `\.[a-zA-Z]{2,}`. -/
def tldLabelRe : Matcher := seq (chr '.') (atLeast2 (cls isAlpha))

/-- Group 4: `\.[a-zA-Z]{2,}(?:\.[a-zA-Z]{2,})*`. -/
def tldRe : Matcher := seq tldLabelRe (star tldLabelRe)

/-- Group 5 without its `?`: `\/[a-zA-Z0-9\/._-]*`. -/
def pathRe : Matcher := seq (chr '/') (star (cls isPathChar))

/-- Every way the whole pattern
`^(https?:\/\/)?([a-zA-Z0-9-]+\.)?([a-zA-Z0-9-]+)(\.[a-zA-Z]{2,}(?:\.[a-zA-Z]{2,})*)(\/[a-zA-Z0-9\/._-]*)?$`
matches all of `inp`, as the texts of groups 1 to 5, in backtracking order. A group that
takes no part in the match has the empty text, as in `FindStringSubmatch`. -/
def allMatches (inp : List Char) : List (List (List Char)) :=
  (opt protocolRe inp).flatMap fun g1 =>
  (opt subdomainRe g1.2).flatMap fun g2 =>
  (domainRe g2.2).flatMap fun g3 =>
  (tldRe g3.2).flatMap fun g4 =>
  (opt pathRe g4.2).flatMap fun g5 =>
  if g5.2 = [] then [[g1.1, g2.1, g3.1, g4.1, g5.1]] else []

/-- The call `re.FindStringSubmatch(s)`: `none` for Go's `nil`, otherwise the whole match
followed by the five groups of the first match in backtracking order. -/
def FindStringSubmatch (s : String) : Option (List String) :=
  (allMatches s.data).head?.map fun gs => s :: gs.map String.mk

/-! ## `ParseURL` -/

/-- The method `ParseURL`. `none` is the `log.Fatal` exit of line 58; otherwise the record
after the call. -/
def ParseURL (panicOnFail : Bool) (u : URLProps) : Option URLProps :=
  match FindStringSubmatch u.Url with
  | some [_, m1, m2, m3, m4, m5] =>
      some { Url := u.Url
             Protocol := if m1 = "" then "http" else m1  -- lines 63, 68-70
             Subdomain := m2
             Domain := m3
             TLD := m4
             Path := m5 }
  | _ => if panicOnFail then none else some u

/-! ## The link handler of `main` -/

/-- What `main` keeps between two calls of the link handler: the keys of the map `visited`,
the global slice `urlMatches`, and the links passed to `e.Request.Visit` so far, in order. -/
structure CrawlState where
  visited : List String
  urlMatches : List URLProps
  visits : List String
  deriving DecidableEq, Repr

/-- The state `main` starts from: an empty map, a nil slice, nothing enqueued. -/
def CrawlState.init : CrawlState := { visited := [], urlMatches := [], visits := [] }

/-- The condition of line 196. -/
def admits (target result : URLProps) : Bool :=
  result.Domain != "" && result.TLD != "" && result.Domain == target.Domain &&
    target.Subdomain != "languagecentre"

/-- The `OnHTML("a[href]")` callback (lines 179-202) on the absolute link `link`. -/
def onHTML (target : URLProps) (st : CrawlState) (link : String) : CrawlState :=
  if link = "" then st
  else if link ∈ st.visited then st
  else
    match ParseURL false (NewURLProps link) with
    | none => st
    | some result =>
        let st1 := { st with visited := link :: st.visited }
        if admits target result then
          { st1 with urlMatches := st1.urlMatches ++ [result], visits := st1.visits ++ [link] }
        else st1

/-- A run: the handler applied in turn to the discovered absolute links. -/
def crawl (target : URLProps) (links : List String) : CrawlState :=
  links.foldl (onHTML target) CrawlState.init

/-- The urls handed to the collector for visiting: `c.Visit(target.Url)` of line 214, then
the `e.Request.Visit(link)` calls of the handler. -/
def pendingHistory (target : URLProps) (links : List String) : List String :=
  target.Url :: (crawl target links).visits

/-! ## Sorting and the format dispatch -/

/-- The bytes of a Go string: the UTF-8 encoding of its characters. -/
def utf8Bytes (s : String) : List Nat :=
  (s.data.flatMap String.utf8EncodeChar).map UInt8.toNat

/-- Lexicographic comparison of byte sequences, a proper prefix being smaller. -/
def bytesLess : List Nat → List Nat → Bool
  | [], [] => false
  | [], _ :: _ => true
  | _ :: _, [] => false
  | a :: as, b :: bs => a < b || (a == b && bytesLess as bs)

/-- Go's `<` on strings. -/
def goStringLess (a b : String) : Bool := bytesLess (utf8Bytes a) (utf8Bytes b)

/-- The `less` closure of line 219, on the elements compared. -/
def urlLess (a b : URLProps) : Bool := goStringLess a.Url b.Url

/-- The inner loop of the standard library's `insertionSort_func`: the new element `x` is
swapped leftwards while it is less than its left neighbour. `rp` is the sorted part to its
left, nearest element first. -/
def sinkLeft {α : Type} (less : α → α → Bool) (x : α) : List α → List α
  | [] => [x]
  | y :: rp => if less x y then y :: sinkLeft less x rp else x :: y :: rp

/-- The standard library's `sort.Slice`, by its insertion sort (`insertionSort_func`, what
`pdqsort_func` runs on a slice of at most 12 elements). -/
def sortSlice {α : Type} (less : α → α → Bool) (data : List α) : List α :=
  (data.foldl (fun rp x => sinkLeft less x rp) []).reverse

/-- The three serializers. -/
inductive Writer where
  | WriteCSV
  | WriteJSON
  | WriteTXT
  deriving DecidableEq, Repr

/-- The `switch *fileType` of lines 222-252: the serializer calls made, in order, each with
its two arguments, when no call fails. -/
def writerCalls (fileType : String) (urlMatches : List URLProps) (target : URLProps) :
    List (Writer × List URLProps × URLProps) :=
  if fileType = "a" then
    [(Writer.WriteCSV, urlMatches, target), (Writer.WriteJSON, urlMatches, target),
      (Writer.WriteTXT, urlMatches, target)]
  else if fileType = "c" then [(Writer.WriteCSV, urlMatches, target)]
  else if fileType = "j" then [(Writer.WriteJSON, urlMatches, target)]
  else if fileType = "t" then [(Writer.WriteTXT, urlMatches, target)]
  else []

/-- Lines 218-252 of `main`: sort the accumulated `urlMatches`, then dispatch. -/
def emit (fileType : String) (accepted : List URLProps) (target : URLProps) :
    List (Writer × List URLProps × URLProps) :=
  writerCalls fileType (sortSlice urlLess accepted) target

/-! ## Vocabulary of the statements -/

/-- The input ends here or goes on with a character outside `p`. -/
def stopsAt (p : Char → Bool) (rest : List Char) : Prop :=
  ∀ c ∈ rest.head?, p c = false

/-- The text of a TLD made of the labels `ts`: each label with a dot before it. -/
def joinLabels (ts : List (List Char)) : List Char :=
  ts.flatMap fun l => '.' :: l

/-- Every alternative of `a` takes at least one character. -/
def Consuming (a : Matcher) : Prop :=
  ∀ inp x, x ∈ a inp → x.2.length < inp.length

/-- No alternative of `a` leaves more input than it was given. -/
def NonIncreasing (a : Matcher) : Prop :=
  ∀ inp x, x ∈ a inp → x.2.length ≤ inp.length

/-- What the handler keeps true of the crawl state: every accepted record passed the
condition of line 196 and has its url in `visited`, the accepted urls are pairwise
distinct, and the links enqueued are the accepted urls, in order. -/
def CrawlInv (target : URLProps) (st : CrawlState) : Prop :=
  (∀ r ∈ st.urlMatches, admits target r = true ∧ r.Url ∈ st.visited) ∧
    (st.urlMatches.map fun r => r.Url).Nodup ∧
    st.visits = st.urlMatches.map fun r => r.Url

/-! ## Lemmas on the matcher -/

theorem mem_cls {p : Char → Bool} {inp : List Char} {x : List Char × List Char}
    (h : x ∈ cls p inp) : ∃ c cs, inp = c :: cs ∧ p c = true ∧ x = ([c], cs) := by
  cases inp with
  | nil => simp [cls] at h
  | cons c cs =>
    by_cases hp : p c = true
    · simp [cls, hp] at h
      exact ⟨c, cs, rfl, hp, h⟩
    · simp [cls, hp] at h

theorem mem_chr {c : Char} {inp : List Char} {x : List Char × List Char}
    (h : x ∈ chr c inp) : ∃ cs, inp = c :: cs ∧ x = ([c], cs) := by
  obtain ⟨d, cs, h1, h2, h3⟩ := mem_cls h
  have hd : d = c := by simpa using h2
  subst hd
  exact ⟨cs, h1, h3⟩

theorem mem_seq {a b : Matcher} {inp : List Char} {x : List Char × List Char} :
    x ∈ seq a b inp ↔ ∃ y ∈ a inp, ∃ z ∈ b y.2, x = (y.1 ++ z.1, z.2) := by
  simp only [seq, List.mem_flatMap, List.mem_map]
  constructor
  · rintro ⟨y, hy, z, hz, rfl⟩
    exact ⟨y, hy, z, hz, rfl⟩
  · rintro ⟨y, hy, z, hz, rfl⟩
    exact ⟨y, hy, z, hz, rfl⟩

theorem cls_cons_of_true {p : Char → Bool} {c : Char} (cs : List Char) (h : p c = true) :
    cls p (c :: cs) = [([c], cs)] := by
  simp [cls, h]

theorem chr_cons (c : Char) (cs : List Char) : chr c (c :: cs) = [([c], cs)] := by
  simp [chr, cls]

/-- The first alternative of a concatenation is made of the first alternatives of its
parts. -/
theorem seq_head {a b : Matcher} {inp w1 r1 w2 r2 : List Char}
    {t1 t2 : List (List Char × List Char)}
    (h1 : a inp = (w1, r1) :: t1) (h2 : b r1 = (w2, r2) :: t2) :
    ∃ t, seq a b inp = (w1 ++ w2, r2) :: t := by
  simp [seq, h1, h2]

theorem opt_head {a : Matcher} {inp : List Char} {x : List Char × List Char}
    {t : List (List Char × List Char)} (h : a inp = x :: t) :
    ∃ t2, opt a inp = x :: t2 := by
  simp [opt, h]

theorem cls_eq_nil_of_stopsAt {p : Char → Bool} {rest : List Char} (h : stopsAt p rest) :
    cls p rest = [] := by
  cases rest with
  | nil => rfl
  | cons c cs =>
    have hc : p c = false := h c (by simp)
    simp [cls, hc]

/-- Greedy `[p]*` takes the whole run of `p` characters first. -/
theorem starN_cls_head {p : Char → Bool} (w rest : List Char) (hw : ∀ c ∈ w, p c = true)
    (hr : stopsAt p rest) (n : Nat) (hn : w.length ≤ n) :
    ∃ t, starN (cls p) n (w ++ rest) = (w, rest) :: t := by
  induction w generalizing n with
  | nil =>
    cases n with
    | zero => exact ⟨[], rfl⟩
    | succ n => exact ⟨[], by simp [starN, cls_eq_nil_of_stopsAt hr]⟩
  | cons c w ih =>
    cases n with
    | zero => simp at hn
    | succ n =>
      have hc : p c = true := hw c (by simp)
      obtain ⟨t, ht⟩ := ih (fun d hd => hw d (by simp [hd])) n (by simpa using hn)
      refine ⟨t.map (fun y => ([c] ++ y.1, y.2)) ++ [([], c :: (w ++ rest))], ?_⟩
      simp [starN, cls_cons_of_true _ hc, ht]

theorem star_cls_head {p : Char → Bool} (w rest : List Char) (hw : ∀ c ∈ w, p c = true)
    (hr : stopsAt p rest) : ∃ t, star (cls p) (w ++ rest) = (w, rest) :: t :=
  starN_cls_head w rest hw hr _ (by simp)

/-- Greedy `[p]+` takes the whole run of `p` characters first. -/
theorem plus_cls_head {p : Char → Bool} (w rest : List Char) (hne : w ≠ [])
    (hw : ∀ c ∈ w, p c = true) (hr : stopsAt p rest) :
    ∃ t, plus (cls p) (w ++ rest) = (w, rest) :: t := by
  cases w with
  | nil => exact absurd rfl hne
  | cons c w =>
    obtain ⟨t, ht⟩ := star_cls_head w rest (fun d hd => hw d (by simp [hd])) hr
    obtain ⟨t2, ht2⟩ := seq_head (cls_cons_of_true (w ++ rest) (hw c (by simp))) ht
    exact ⟨t2, by simpa [plus] using ht2⟩

/-- Greedy `[p]{2,}` takes the whole run of `p` characters first. -/
theorem atLeast2_cls_head {p : Char → Bool} (w rest : List Char) (hlen : 2 ≤ w.length)
    (hw : ∀ c ∈ w, p c = true) (hr : stopsAt p rest) :
    ∃ t, atLeast2 (cls p) (w ++ rest) = (w, rest) :: t := by
  match w, hlen with
  | c :: d :: w, _ =>
    obtain ⟨t, ht⟩ := star_cls_head w rest (fun e he => hw e (by simp [he])) hr
    obtain ⟨t2, ht2⟩ := seq_head (cls_cons_of_true (w ++ rest) (hw d (by simp))) ht
    obtain ⟨t3, ht3⟩ := seq_head (cls_cons_of_true (d :: (w ++ rest)) (hw c (by simp))) ht2
    exact ⟨t3, by simpa [atLeast2] using ht3⟩

theorem isAlpha_dot : isAlpha '.' = false := by decide

theorem stopsAt_joinLabels_append (ts : List (List Char)) (rest : List Char)
    (hr : stopsAt (fun c => isAlpha c || c == '.') rest) :
    stopsAt isAlpha (joinLabels ts ++ rest) := by
  cases ts with
  | nil =>
    intro c hc
    have := hr c (by simpa [joinLabels] using hc)
    simp at this
    exact this.1
  | cons l ts =>
    intro c hc
    simp [joinLabels] at hc
    subst hc
    exact isAlpha_dot

/-- One TLD label `\.[a-zA-Z]{2,}` takes the dot and the whole run of letters first. -/
theorem tldLabelRe_head (l rest : List Char) (hlen : 2 ≤ l.length)
    (hl : ∀ c ∈ l, isAlpha c = true) (hr : stopsAt isAlpha rest) :
    ∃ t, tldLabelRe ('.' :: (l ++ rest)) = ('.' :: l, rest) :: t := by
  obtain ⟨t, ht⟩ := atLeast2_cls_head l rest hlen hl hr
  obtain ⟨t2, ht2⟩ := seq_head (chr_cons '.' (l ++ rest)) ht
  exact ⟨t2, by simpa [tldLabelRe] using ht2⟩

theorem tldLabelRe_eq_nil (rest : List Char)
    (hr : stopsAt (fun c => isAlpha c || c == '.') rest) : tldLabelRe rest = [] := by
  cases rest with
  | nil => simp [tldLabelRe, seq, chr, cls]
  | cons c cs =>
    have := hr c (by simp)
    simp at this
    simp [tldLabelRe, seq, chr, cls, this.2]

theorem length_le_joinLabels (ts : List (List Char)) : ts.length ≤ (joinLabels ts).length := by
  induction ts with
  | nil => simp
  | cons l ts ih =>
    simp only [joinLabels, List.flatMap_cons, List.length_cons, List.length_append] at ih ⊢
    omega

/-- Greedy `(?:\.[a-zA-Z]{2,})*` takes every label first. -/
theorem starN_tldLabelRe_head (ts : List (List Char)) (rest : List Char)
    (hts : ∀ l ∈ ts, 2 ≤ l.length ∧ ∀ c ∈ l, isAlpha c = true)
    (hr : stopsAt (fun c => isAlpha c || c == '.') rest) (n : Nat) (hn : ts.length ≤ n) :
    ∃ t, starN tldLabelRe n (joinLabels ts ++ rest) = (joinLabels ts, rest) :: t := by
  induction ts generalizing n with
  | nil =>
    cases n with
    | zero => exact ⟨[], rfl⟩
    | succ n => exact ⟨[], by simp [starN, joinLabels, tldLabelRe_eq_nil rest hr]⟩
  | cons l ts ih =>
    cases n with
    | zero => simp at hn
    | succ n =>
      obtain ⟨h2, hl⟩ := hts l (by simp)
      obtain ⟨t1, ht1⟩ := tldLabelRe_head l (joinLabels ts ++ rest) h2 hl
        (stopsAt_joinLabels_append ts rest hr)
      obtain ⟨t2, ht2⟩ := ih (fun m hm => hts m (by simp [hm])) n (by simpa using hn)
      have hin : joinLabels (l :: ts) ++ rest = '.' :: (l ++ (joinLabels ts ++ rest)) := by
        simp [joinLabels]
      have hout : joinLabels (l :: ts) = ('.' :: l) ++ joinLabels ts := by
        simp [joinLabels]
      rw [hin, hout]
      simp [starN, ht1, ht2]

/-- Group 4 takes the whole multi-label TLD first. -/
theorem tldRe_head (ts : List (List Char)) (rest : List Char) (hne : ts ≠ [])
    (hts : ∀ l ∈ ts, 2 ≤ l.length ∧ ∀ c ∈ l, isAlpha c = true)
    (hr : stopsAt (fun c => isAlpha c || c == '.') rest) :
    ∃ t, tldRe (joinLabels ts ++ rest) = (joinLabels ts, rest) :: t := by
  cases ts with
  | nil => exact absurd rfl hne
  | cons l ts =>
    obtain ⟨h2, hl⟩ := hts l (by simp)
    obtain ⟨t1, ht1⟩ := tldLabelRe_head l (joinLabels ts ++ rest) h2 hl
      (stopsAt_joinLabels_append ts rest hr)
    have hfuel : ts.length ≤ (joinLabels ts ++ rest).length := by
      have := length_le_joinLabels ts
      simp only [List.length_append]
      omega
    obtain ⟨t2, ht2⟩ := starN_tldLabelRe_head ts rest (fun m hm => hts m (by simp [hm])) hr
      _ hfuel
    obtain ⟨t3, ht3⟩ := @seq_head tldLabelRe (star tldLabelRe) _ _ _ _ _ _ _ ht1 ht2
    refine ⟨t3, ?_⟩
    have hin : joinLabels (l :: ts) ++ rest = '.' :: (l ++ (joinLabels ts ++ rest)) := by
      simp [joinLabels]
    have hout : joinLabels (l :: ts) = ('.' :: l) ++ joinLabels ts := by
      simp [joinLabels]
    rw [hin, hout]
    exact ht3

/-- Group 5 takes a whole well-formed path first, and the empty text on no input. -/
theorem opt_pathRe_head (path : List Char)
    (hp : path = [] ∨ ∃ p, path = '/' :: p ∧ ∀ c ∈ p, isPathChar c = true) :
    ∃ t, opt pathRe path = (path, []) :: t := by
  rcases hp with rfl | ⟨p, rfl, hp⟩
  · exact ⟨[], by simp [opt, pathRe, seq, chr, cls]⟩
  · obtain ⟨t, ht⟩ := star_cls_head p [] hp (by intro c hc; simp at hc)
    rw [List.append_nil] at ht
    obtain ⟨t2, ht2⟩ := seq_head (chr_cons '/' p) ht
    exact opt_head (by simpa [pathRe] using ht2)

theorem protocolRe_http (rest : List Char) :
    protocolRe ('h' :: 't' :: 't' :: 'p' :: ':' :: '/' :: '/' :: rest) =
      [(['h', 't', 't', 'p', ':', '/', '/'], rest)] := by
  simp [protocolRe, seq, chr, cls, opt]

theorem protocolRe_https (rest : List Char) :
    protocolRe ('h' :: 't' :: 't' :: 'p' :: 's' :: ':' :: '/' :: '/' :: rest) =
      [(['h', 't', 't', 'p', 's', ':', '/', '/'], rest)] := by
  simp [protocolRe, seq, chr, cls, opt]

theorem mem_opt {a : Matcher} {inp : List Char} {x : List Char × List Char} :
    x ∈ opt a inp ↔ x ∈ a inp ∨ x = ([], inp) := by
  simp [opt]

/-- Group 1 only ever matches `http://` or `https://` at the start of its input. -/
theorem mem_protocolRe {inp : List Char} {x : List Char × List Char} (h : x ∈ protocolRe inp) :
    ∃ rest, (inp = 'h' :: 't' :: 't' :: 'p' :: ':' :: '/' :: '/' :: rest ∧
        x = (['h', 't', 't', 'p', ':', '/', '/'], rest)) ∨
      (inp = 'h' :: 't' :: 't' :: 'p' :: 's' :: ':' :: '/' :: '/' :: rest ∧
        x = (['h', 't', 't', 'p', 's', ':', '/', '/'], rest)) := by
  unfold protocolRe at h
  obtain ⟨y1, h1, z1, hz1, rfl⟩ := mem_seq.1 h
  obtain ⟨r1, rfl, rfl⟩ := mem_chr h1
  obtain ⟨y2, h2, z2, hz2, rfl⟩ := mem_seq.1 hz1
  obtain ⟨r2, e2, rfl⟩ := mem_chr h2
  obtain ⟨y3, h3, z3, hz3, rfl⟩ := mem_seq.1 hz2
  obtain ⟨r3, e3, rfl⟩ := mem_chr h3
  obtain ⟨y4, h4, z4, hz4, rfl⟩ := mem_seq.1 hz3
  obtain ⟨r4, e4, rfl⟩ := mem_chr h4
  obtain ⟨y5, h5, z5, hz5, rfl⟩ := mem_seq.1 hz4
  obtain ⟨y6, h6, z6, hz6, rfl⟩ := mem_seq.1 hz5
  obtain ⟨r6, e6, rfl⟩ := mem_chr h6
  obtain ⟨y7, h7, z7, hz7, rfl⟩ := mem_seq.1 hz6
  obtain ⟨r7, e7, rfl⟩ := mem_chr h7
  obtain ⟨r8, e8, rfl⟩ := mem_chr hz7
  simp only at e2 e3 e4 e6 e7 e8 h5
  subst e2 e3 e4
  rcases mem_opt.1 h5 with h5 | h5
  · obtain ⟨r5, e5, rfl⟩ := mem_chr h5
    simp only at e6
    subst e5 e6 e7 e8
    exact ⟨r8, Or.inr ⟨rfl, rfl⟩⟩
  · subst h5
    simp only at e6
    subst e6 e7 e8
    exact ⟨r8, Or.inl ⟨rfl, rfl⟩⟩

theorem dropWhile_run {p : Char → Bool} (s : List Char) (d : Char) (r : List Char)
    (hs : ∀ c ∈ s, p c = true) (hd : p d = false) :
    (s ++ d :: r).dropWhile p = d :: r := by
  induction s with
  | nil => simp [List.dropWhile, hd]
  | cons c s ih =>
    have hc : p c = true := hs c (by simp)
    simp only [List.cons_append, List.dropWhile, hc]
    exact ih (fun e he => hs e (by simp [he]))

/-- Group 1 matches nothing at the start of a host name. -/
theorem protocolRe_eq_nil (s r : List Char) (hs : ∀ c ∈ s, isLabelChar c = true) :
    protocolRe (s ++ '.' :: r) = [] := by
  apply List.eq_nil_iff_forall_not_mem.2
  intro x hx
  have hdrop := dropWhile_run s '.' r hs (by decide)
  have hh : isLabelChar 'h' = true := by decide
  have ht : isLabelChar 't' = true := by decide
  have hp : isLabelChar 'p' = true := by decide
  have hS : isLabelChar 's' = true := by decide
  have hc : isLabelChar ':' = false := by decide
  obtain ⟨rest, ⟨e, -⟩ | ⟨e, -⟩⟩ := mem_protocolRe hx
  · rw [e] at hdrop
    simp [List.dropWhile, hh, ht, hp, hc] at hdrop
  · rw [e] at hdrop
    simp [List.dropWhile, hh, ht, hp, hS, hc] at hdrop

theorem head?_flatMap {α β : Type} {l : List α} {x : α} {t : List α} {f : α → List β} {y : β}
    (h : l = x :: t) (hy : (f x).head? = some y) : (l.flatMap f).head? = some y := by
  subst h
  cases hfx : f x with
  | nil => simp [hfx] at hy
  | cons z zs =>
    rw [hfx] at hy
    simp only [List.head?_cons, Option.some.injEq] at hy
    subst hy
    simp [List.flatMap_cons, hfx]

/-- The first match of the whole pattern on `[http:// or https://] s "." d t [path]`. -/
theorem allMatches_head (proto s d : List Char) (ts : List (List Char)) (path : List Char)
    (hproto : proto = [] ∨ proto = ['h', 't', 't', 'p', ':', '/', '/'] ∨
      proto = ['h', 't', 't', 'p', 's', ':', '/', '/'])
    (hs : s ≠ []) (hsc : ∀ c ∈ s, isLabelChar c = true)
    (hd : d ≠ []) (hdc : ∀ c ∈ d, isLabelChar c = true)
    (hts : ts ≠ []) (htc : ∀ l ∈ ts, 2 ≤ l.length ∧ ∀ c ∈ l, isAlpha c = true)
    (hpath : path = [] ∨ ∃ p, path = '/' :: p ∧ ∀ c ∈ p, isPathChar c = true) :
    (allMatches (proto ++ (s ++ '.' :: (d ++ (joinLabels ts ++ path))))).head? =
      some [proto, s ++ ['.'], d, joinLabels ts, path] := by
  have hstop : stopsAt (fun c => isAlpha c || c == '.') path := by
    rcases hpath with rfl | ⟨p, rfl, -⟩
    · intro c hc; simp at hc
    · intro c hc
      simp at hc
      subst hc
      decide
  have hstopL : stopsAt isLabelChar (joinLabels ts ++ path) := by
    cases ts with
    | nil => exact absurd rfl hts
    | cons l ts =>
      intro c hc
      simp [joinLabels] at hc
      subst hc
      decide
  have hstopS : stopsAt isLabelChar ('.' :: (d ++ (joinLabels ts ++ path))) := by
    intro c hc
    simp at hc
    subst hc
    decide
  obtain ⟨t1, h1⟩ : ∃ t1, opt protocolRe (proto ++ (s ++ '.' :: (d ++ (joinLabels ts ++ path))))
      = (proto, s ++ '.' :: (d ++ (joinLabels ts ++ path))) :: t1 := by
    rcases hproto with rfl | rfl | rfl
    · exact ⟨[], by simp [opt, protocolRe_eq_nil s _ hsc]⟩
    · exact opt_head (protocolRe_http _)
    · exact opt_head (protocolRe_https _)
  obtain ⟨t2, h2⟩ : ∃ t2, opt subdomainRe (s ++ '.' :: (d ++ (joinLabels ts ++ path)))
      = (s ++ ['.'], d ++ (joinLabels ts ++ path)) :: t2 := by
    obtain ⟨u, hu⟩ := plus_cls_head s _ hs hsc hstopS
    obtain ⟨u2, hu2⟩ := seq_head hu (chr_cons '.' (d ++ (joinLabels ts ++ path)))
    exact opt_head (by simpa [subdomainRe] using hu2)
  obtain ⟨t3, h3⟩ : ∃ t3, domainRe (d ++ (joinLabels ts ++ path))
      = (d, joinLabels ts ++ path) :: t3 := plus_cls_head d _ hd hdc hstopL
  obtain ⟨t4, h4⟩ := tldRe_head ts path hts htc hstop
  obtain ⟨t5, h5⟩ := opt_pathRe_head path hpath
  unfold allMatches
  exact head?_flatMap h1 (head?_flatMap h2 (head?_flatMap h3 (head?_flatMap h4
    (head?_flatMap h5 (by simp)))))

/-- Every match of the whole pattern has five groups; group 1 is empty or a scheme with
its `://`, group 2 is empty or ends with its dot. -/
theorem allMatches_shape {inp : List Char} {gs : List (List Char)} (h : gs ∈ allMatches inp) :
    ∃ g1 g2 g3 g4 g5, gs = [g1, g2, g3, g4, g5] ∧
      (g1 = [] ∨ g1 = ['h', 't', 't', 'p', ':', '/', '/'] ∨
        g1 = ['h', 't', 't', 'p', 's', ':', '/', '/']) ∧
      (g2 = [] ∨ g2.getLast? = some '.') := by
  unfold allMatches at h
  simp only [List.mem_flatMap] at h
  obtain ⟨x1, h1, x2, h2, x3, -, x4, -, x5, -, h6⟩ := h
  by_cases h5 : x5.2 = []
  · simp only [h5, if_true, List.mem_singleton] at h6
    refine ⟨x1.1, x2.1, x3.1, x4.1, x5.1, h6, ?_, ?_⟩
    · rcases mem_opt.1 h1 with h1 | h1
      · obtain ⟨rest, ⟨-, e⟩ | ⟨-, e⟩⟩ := mem_protocolRe h1
        · exact Or.inr (Or.inl (by rw [e]))
        · exact Or.inr (Or.inr (by rw [e]))
      · exact Or.inl (by rw [h1])
    · rcases mem_opt.1 h2 with h2 | h2
      · unfold subdomainRe at h2
        obtain ⟨y, -, z, hz, e⟩ := mem_seq.1 h2
        obtain ⟨cs, -, rfl⟩ := mem_chr hz
        exact Or.inr (by rw [e]; simp)
      · exact Or.inl (by rw [h2])
  · simp [h5] at h6

/-- The two outcomes of `ParseURL`: no match, and the record is returned as it was (or the
process exits); or a first match, whose groups fill the fields. -/
theorem ParseURL_cases (b : Bool) (u : URLProps) :
    ((allMatches u.Url.data).head? = none ∧ ParseURL b u = if b then none else some u) ∨
    ∃ g1 g2 g3 g4 g5, (allMatches u.Url.data).head? = some [g1, g2, g3, g4, g5] ∧
      (g1 = [] ∨ g1 = ['h', 't', 't', 'p', ':', '/', '/'] ∨
        g1 = ['h', 't', 't', 'p', 's', ':', '/', '/']) ∧
      (g2 = [] ∨ g2.getLast? = some '.') ∧
      ParseURL b u = some
        { Url := u.Url
          Protocol := if String.mk g1 = "" then "http" else String.mk g1
          Subdomain := String.mk g2
          Domain := String.mk g3
          TLD := String.mk g4
          Path := String.mk g5 } := by
  cases hm : (allMatches u.Url.data).head? with
  | none =>
    left
    exact ⟨rfl, by simp [ParseURL, FindStringSubmatch, hm]⟩
  | some gs =>
    right
    obtain ⟨g1, g2, g3, g4, g5, rfl, hg1, hg2⟩ := allMatches_shape (List.mem_of_mem_head? hm)
    exact ⟨g1, g2, g3, g4, g5, rfl, hg1, hg2, by simp [ParseURL, FindStringSubmatch, hm]⟩

theorem ParseURL_url {b : Bool} {u r : URLProps} (h : ParseURL b u = some r) : r.Url = u.Url := by
  rcases ParseURL_cases b u with ⟨-, h2⟩ | ⟨g1, g2, g3, g4, g5, -, -, -, h2⟩
  · rw [h2] at h
    cases b
    · simp at h; rw [← h]
    · simp at h
  · rw [h2] at h
    simp at h
    rw [← h]

theorem ParseURL_false_ne_none (u : URLProps) : ParseURL false u ≠ none := by
  rcases ParseURL_cases false u with ⟨-, h2⟩ | ⟨g1, g2, g3, g4, g5, -, -, -, h2⟩ <;>
    rw [h2] <;> simp

/-! ## The unrolling bound of `star` is enough -/

theorem consuming_cls (p : Char → Bool) : Consuming (cls p) := by
  intro inp x hx
  obtain ⟨c, cs, rfl, -, rfl⟩ := mem_cls hx
  simp

theorem nonIncreasing_of_consuming {a : Matcher} (h : Consuming a) : NonIncreasing a :=
  fun inp x hx => Nat.le_of_lt (h inp x hx)

theorem nonIncreasing_seq {a b : Matcher} (ha : NonIncreasing a) (hb : NonIncreasing b) :
    NonIncreasing (seq a b) := by
  intro inp x hx
  obtain ⟨y, hy, z, hz, rfl⟩ := mem_seq.1 hx
  exact Nat.le_trans (hb _ z hz) (ha _ y hy)

theorem consuming_seq {a b : Matcher} (ha : Consuming a) (hb : NonIncreasing b) :
    Consuming (seq a b) := by
  intro inp x hx
  obtain ⟨y, hy, z, hz, rfl⟩ := mem_seq.1 hx
  exact Nat.lt_of_le_of_lt (hb _ z hz) (ha _ y hy)

theorem nonIncreasing_starN {a : Matcher} (ha : NonIncreasing a) (n : Nat) :
    NonIncreasing (starN a n) := by
  induction n with
  | zero =>
    intro inp x hx
    simp only [starN, List.mem_singleton] at hx
    rw [hx]
  | succ n ih =>
    intro inp x hx
    simp only [starN, List.mem_append, List.mem_flatMap, List.mem_map, List.mem_singleton] at hx
    rcases hx with ⟨y, hy, z, hz, rfl⟩ | rfl
    · exact Nat.le_trans (ih _ z hz) (ha _ y hy)
    · exact Nat.le_refl _

theorem nonIncreasing_star {a : Matcher} (ha : NonIncreasing a) : NonIncreasing (star a) :=
  fun inp x hx => nonIncreasing_starN ha inp.length inp x hx

theorem consuming_tldLabelRe : Consuming tldLabelRe :=
  consuming_seq (consuming_cls _)
    (nonIncreasing_seq (nonIncreasing_of_consuming (consuming_cls _))
      (nonIncreasing_seq (nonIncreasing_of_consuming (consuming_cls _))
        (nonIncreasing_star (nonIncreasing_of_consuming (consuming_cls _)))))

/-- Unrolling `a*` more often than the input is long changes nothing. -/
theorem starN_fuel {a : Matcher} (ha : Consuming a) (n m : Nat) (inp : List Char)
    (hn : inp.length ≤ n) (hm : inp.length ≤ m) : starN a n inp = starN a m inp := by
  induction n generalizing m inp with
  | zero =>
    have hnil : inp = [] := List.length_eq_zero.1 (Nat.le_zero.1 hn)
    subst hnil
    have ha0 : a [] = [] := by
      apply List.eq_nil_iff_forall_not_mem.2
      intro x hx
      exact absurd (ha [] x hx) (by simp)
    cases m with
    | zero => rfl
    | succ m => simp [starN, ha0]
  | succ n ih =>
    cases m with
    | zero =>
      have hnil : inp = [] := List.length_eq_zero.1 (Nat.le_zero.1 hm)
      subst hnil
      have ha0 : a [] = [] := by
        apply List.eq_nil_iff_forall_not_mem.2
        intro x hx
        exact absurd (ha [] x hx) (by simp)
      simp [starN, ha0]
    | succ m =>
      simp only [starN]
      congr 1
      apply List.flatMap_congr
      intro x hx
      have hlt := ha inp x hx
      rw [ih m x.2 (by omega) (by omega)]

/-- The greedy star of a consuming expression satisfies its defining equation: one more
occurrence followed by the star again, before the empty match. -/
theorem star_unfold {a : Matcher} (ha : Consuming a) (inp : List Char) :
    star a inp =
      ((a inp).flatMap fun x => (star a x.2).map fun y => (x.1 ++ y.1, y.2)) ++ [([], inp)] := by
  unfold star
  cases inp with
  | nil =>
    have ha0 : a [] = [] := by
      apply List.eq_nil_iff_forall_not_mem.2
      intro x hx
      exact absurd (ha [] x hx) (by simp)
    simp [starN, ha0]
  | cons c cs =>
    simp only [List.length_cons, starN]
    congr 1
    apply List.flatMap_congr
    intro x hx
    have hlt := ha (c :: cs) x hx
    simp only [List.length_cons] at hlt
    rw [starN_fuel ha cs.length x.2.length x.2 (by omega) (Nat.le_refl _)]

/-! ## Lemmas on the link handler -/

theorem CrawlInv_init (target : URLProps) : CrawlInv target CrawlState.init := by
  simp [CrawlInv, CrawlState.init]

theorem onHTML_inv (target : URLProps) (st : CrawlState) (link : String)
    (h : CrawlInv target st) : CrawlInv target (onHTML target st link) := by
  unfold onHTML
  by_cases h1 : link = ""
  · simpa [h1] using h
  by_cases h2 : link ∈ st.visited
  · simpa [h1, h2] using h
  simp only [h1, h2, if_false]
  cases hp : ParseURL false (NewURLProps link) with
  | none => simpa using h
  | some result =>
    have hurl : result.Url = link := by simpa [NewURLProps] using ParseURL_url hp
    obtain ⟨ha, hn, hv⟩ := h
    by_cases hadm : admits target result = true
    · simp only [hadm, if_true]
      refine ⟨?_, ?_, ?_⟩
      · intro r hr
        rcases List.mem_append.1 hr with hr | hr
        · exact ⟨(ha r hr).1, List.mem_cons_of_mem _ (ha r hr).2⟩
        · have : r = result := by simpa using hr
          subst this
          exact ⟨hadm, by simp [hurl]⟩
      · rw [List.map_append, List.map_singleton, hurl]
        refine List.Nodup.append hn (List.nodup_singleton _) ?_
        intro u hu hu2
        have : u = link := by simpa using hu2
        subst this
        obtain ⟨r, hr, rfl⟩ := List.mem_map.1 hu
        exact h2 (ha r hr).2
      · simp [hv, hurl]
    · simp only [hadm]
      refine ⟨?_, hn, hv⟩
      intro r hr
      exact ⟨(ha r hr).1, List.mem_cons_of_mem _ (ha r hr).2⟩

theorem foldl_onHTML_inv (target : URLProps) (links : List String) (st : CrawlState)
    (h : CrawlInv target st) : CrawlInv target (links.foldl (onHTML target) st) := by
  induction links generalizing st with
  | nil => exact h
  | cons l ls ih => exact ih _ (onHTML_inv target st l h)

theorem crawl_inv (target : URLProps) (links : List String) :
    CrawlInv target (crawl target links) :=
  foldl_onHTML_inv target links _ (CrawlInv_init target)

/-! ## Lemmas on the sort -/

theorem bytesLess_asymm (a b : List Nat) (h : bytesLess a b = true) : bytesLess b a = false := by
  induction a generalizing b with
  | nil => cases b <;> simp [bytesLess] at h ⊢
  | cons x xs ih =>
    cases b with
    | nil => simp [bytesLess] at h
    | cons y ys =>
      simp only [bytesLess, Bool.or_eq_true, Bool.and_eq_true, decide_eq_true_eq,
        beq_iff_eq] at h
      simp only [bytesLess, Bool.or_eq_false_iff, Bool.and_eq_false_imp, decide_eq_false_iff_not,
        beq_iff_eq]
      rcases h with h | ⟨h, h2⟩
      · exact ⟨by omega, fun e => by omega⟩
      · exact ⟨by omega, fun _ => ih ys h2⟩

theorem bytesLess_negtrans (a b c : List Nat) (h1 : bytesLess a b = false)
    (h2 : bytesLess b c = false) : bytesLess a c = false := by
  induction a generalizing b c with
  | nil =>
    cases b with
    | nil => exact h2
    | cons y ys => simp [bytesLess] at h1
  | cons x xs ih =>
    cases c with
    | nil => simp [bytesLess]
    | cons z zs =>
      cases b with
      | nil => simp [bytesLess] at h2
      | cons y ys =>
        simp only [bytesLess, Bool.or_eq_false_iff, Bool.and_eq_false_imp,
          decide_eq_false_iff_not, beq_iff_eq] at h1 h2 ⊢
        refine ⟨by omega, fun e => ?_⟩
        subst e
        have hxy : x = y := by omega
        subst hxy
        exact ih ys zs (h1.2 rfl) (h2.2 rfl)

/-- Two byte sequences neither of which is less than the other are equal: `bytesLess` is a
strict total order, and "not greater" is "less or equal". -/
theorem bytesLess_connected (a b : List Nat) (h1 : bytesLess a b = false)
    (h2 : bytesLess b a = false) : a = b := by
  induction a generalizing b with
  | nil =>
    cases b with
    | nil => rfl
    | cons y ys => simp [bytesLess] at h1
  | cons x xs ih =>
    cases b with
    | nil => simp [bytesLess] at h2
    | cons y ys =>
      simp only [bytesLess, Bool.or_eq_false_iff, Bool.and_eq_false_imp,
        decide_eq_false_iff_not, beq_iff_eq] at h1 h2
      have hxy : x = y := by omega
      subst hxy
      rw [ih ys (h1.2 rfl) (h2.2 rfl)]

theorem sinkLeft_perm {α : Type} (less : α → α → Bool) (x : α) (rp : List α) :
    (sinkLeft less x rp).Perm (x :: rp) := by
  induction rp with
  | nil => exact List.Perm.refl _
  | cons y rp ih =>
    by_cases h : less x y = true
    · simp only [sinkLeft, h, if_true]
      exact (List.Perm.cons y ih).trans (List.Perm.swap x y rp)
    · simp [sinkLeft, h]

theorem sortSlice_perm {α : Type} (less : α → α → Bool) (data : List α) :
    (sortSlice less data).Perm data := by
  have key : ∀ (l acc : List α),
      (l.foldl (fun rp x => sinkLeft less x rp) acc).Perm (l ++ acc) := by
    intro l
    induction l with
    | nil => intro acc; exact List.Perm.refl _
    | cons x l ih =>
      intro acc
      refine (ih _).trans ?_
      refine (List.Perm.append_left l (sinkLeft_perm less x acc)).trans ?_
      exact @List.perm_middle _ x l acc
  have := key data []
  rw [List.append_nil] at this
  exact (List.reverse_perm _).trans this

theorem sinkLeft_sorted {α : Type} (less : α → α → Bool)
    (hasymm : ∀ a b, less a b = true → less b a = false)
    (hnt : ∀ a b c, less a b = false → less b c = false → less a c = false)
    (x : α) (rp : List α) (h : rp.Pairwise fun a b => less a b = false) :
    (sinkLeft less x rp).Pairwise fun a b => less a b = false := by
  induction rp with
  | nil => simp [sinkLeft]
  | cons y rp ih =>
    obtain ⟨hy, hrp⟩ := List.pairwise_cons.1 h
    by_cases hxy : less x y = true
    · simp only [sinkLeft, hxy, if_true]
      refine List.pairwise_cons.2 ⟨?_, ih hrp⟩
      intro z hz
      rcases List.mem_cons.1 ((sinkLeft_perm less x rp).subset hz) with hz | hz
      · subst hz; exact hasymm _ _ hxy
      · exact hy z hz
    · have hxy : less x y = false := by simpa using hxy
      simp only [sinkLeft, hxy]
      refine List.pairwise_cons.2 ⟨?_, h⟩
      intro z hz
      rcases List.mem_cons.1 hz with hz | hz
      · subst hz; exact hxy
      · exact hnt _ _ _ hxy (hy z hz)

theorem sortSlice_sorted {α : Type} (less : α → α → Bool)
    (hasymm : ∀ a b, less a b = true → less b a = false)
    (hnt : ∀ a b c, less a b = false → less b c = false → less a c = false)
    (data : List α) : (sortSlice less data).Pairwise fun a b => less b a = false := by
  have key : ∀ (l acc : List α), (acc.Pairwise fun a b => less a b = false) →
      (l.foldl (fun rp x => sinkLeft less x rp) acc).Pairwise fun a b => less a b = false := by
    intro l
    induction l with
    | nil => intro acc h; exact h
    | cons x l ih => intro acc h; exact ih _ (sinkLeft_sorted less hasymm hnt x acc h)
  unfold sortSlice
  rw [List.pairwise_reverse]
  exact key data [] List.Pairwise.nil

/-! ## The claims -/

theorem mk_eq_empty (l : List Char) : String.mk l = "" ↔ l = [] := by
  constructor
  · intro h
    have := congrArg String.data h
    simpa using this
  · rintro rfl
    rfl

/-- C1 (same-site closure): for a seed obtained by successfully classifying a seed string
and any sequence of discovered links handled from the empty state, every accepted record
has the seed's domain, a non-empty domain and a non-empty tld. -/
theorem same_site_closure (raw : String) (seed : URLProps) (links : List String)
    (_hseed : ParseURL true (NewURLProps raw) = some seed) (r : URLProps)
    (hr : r ∈ (crawl seed links).urlMatches) :
    r.Domain = seed.Domain ∧ r.Domain ≠ "" ∧ r.TLD ≠ "" := by
  have h := ((crawl_inv seed links).1 r hr).1
  simp only [admits, Bool.and_eq_true, bne_iff_ne, ne_eq, beq_iff_eq] at h
  exact ⟨h.1.2, h.1.1.1, h.1.1.2⟩

/-- The closure theorem at seed https://example.com with the links of scenario S1: the one
accepted record has the domain of the seed. -/
theorem same_site_closure_witness :
    ParseURL true (NewURLProps "https://example.com") =
        some ⟨"https://example.com", "https://", "", "example", ".com", ""⟩ ∧
      (⟨"https://example.com/a", "https://", "", "example", ".com", "/a"⟩ : URLProps) ∈
        (crawl ⟨"https://example.com", "https://", "", "example", ".com", ""⟩
          ["https://example.com/a", "https://other.com/x"]).urlMatches ∧
      (crawl ⟨"https://example.com", "https://", "", "example", ".com", ""⟩
          ["https://example.com/a", "https://other.com/x"]).urlMatches.length = 1 ∧
      ("example" = "example" ∧ "example" ≠ "" ∧ ".com" ≠ "") :=
  ⟨by decide, by decide, by decide,
    same_site_closure "https://example.com"
      ⟨"https://example.com", "https://", "", "example", ".com", ""⟩
      ["https://example.com/a", "https://other.com/x"] (by decide)
      ⟨"https://example.com/a", "https://", "", "example", ".com", "/a"⟩ (by decide)⟩

/-- C2 (no duplicate emission): for every seed and every sequence of discovered links,
repeats allowed, handled from the empty state, no two accepted records have the same url;
and seed https://example.com with links /a, /b, /a leaves /a and /b accepted once each. -/
theorem no_duplicate_emission (seed : URLProps) (links : List String) :
    (crawl seed links).urlMatches.Pairwise (fun r1 r2 => r1.Url ≠ r2.Url) ∧
      ∃ ex, ParseURL true (NewURLProps "https://example.com") = some ex ∧
        (crawl ex ["https://example.com/a", "https://example.com/b",
          "https://example.com/a"]).urlMatches.map (fun r => r.Url) =
          ["https://example.com/a", "https://example.com/b"] := by
  refine ⟨?_, ⟨"https://example.com", "https://", "", "example", ".com", ""⟩, by decide,
    by decide⟩
  have h := (crawl_inv seed links).2.1
  exact (List.pairwise_map.1 h)

/-- C3 (subdomains do not need to match), evaluated at the scenario S3: the seed
http://sub.example.co.za/ classifies with domain "example" and tld ".co.za"; the link
http://sub.example.co.za/page is accepted, but the link http://example.co.za/page
classifies with subdomain "example.", domain "co" and tld ".za", and is not accepted. -/
theorem subdomainless_link_not_admitted :
    ParseURL true (NewURLProps "http://sub.example.co.za/") =
        some ⟨"http://sub.example.co.za/", "http://", "sub.", "example", ".co.za", "/"⟩ ∧
      ParseURL false (NewURLProps "http://example.co.za/page") =
        some ⟨"http://example.co.za/page", "http://", "example.", "co", ".za", "/page"⟩ ∧
      (crawl ⟨"http://sub.example.co.za/", "http://", "sub.", "example", ".co.za", "/"⟩
        ["http://example.co.za/page"]).urlMatches = [] ∧
      (crawl ⟨"http://sub.example.co.za/", "http://", "sub.", "example", ".co.za", "/"⟩
        ["http://sub.example.co.za/page"]).urlMatches =
        [⟨"http://sub.example.co.za/page", "http://", "sub.", "example", ".co.za", "/page"⟩] := by
  refine ⟨by decide, by decide, by decide, by decide⟩

/-- C4 (seed-gate exclusion), evaluated at the scenario S4: the seed
https://languagecentre.example.com classifies with subdomain "languagecentre." (the dot
included), so the guard of line 196 holds and a same-domain link is accepted. -/
theorem languagecentre_seed_admits_links :
    ParseURL true (NewURLProps "https://languagecentre.example.com") =
        some ⟨"https://languagecentre.example.com", "https://", "languagecentre.", "example",
          ".com", ""⟩ ∧
      (crawl ⟨"https://languagecentre.example.com", "https://", "languagecentre.", "example",
          ".com", ""⟩ ["https://languagecentre.example.com/a"]).urlMatches =
        [⟨"https://languagecentre.example.com/a", "https://", "languagecentre.", "example",
          ".com", "/a"⟩] := by
  refine ⟨by decide, by decide⟩

/-- C5 (protocol is "http" or "https"), evaluated on inputs with a scheme: the protocol
field of https://example.com is "https://" and that of http://example.com is "http://",
the separator included; only the input without a scheme gets "http". In general the
protocol field of a returned record is "http", "http://" or "https://" (or still empty,
when nothing matched in non-fatal mode). -/
theorem protocol_keeps_separator :
    (ParseURL false (NewURLProps "https://example.com")).map (fun r => r.Protocol) =
        some "https://" ∧
      (ParseURL false (NewURLProps "http://example.com")).map (fun r => r.Protocol) =
        some "http://" ∧
      (ParseURL false (NewURLProps "example.com")).map (fun r => r.Protocol) = some "http" ∧
      ∀ (b : Bool) (raw : String) (r : URLProps), ParseURL b (NewURLProps raw) = some r →
        r.Protocol ∈ ["", "http", "http://", "https://"] := by
  refine ⟨by decide, by decide, by decide, ?_⟩
  intro b raw r h
  rcases ParseURL_cases b (NewURLProps raw) with ⟨-, h2⟩ | ⟨g1, g2, g3, g4, g5, -, hg1, -, h2⟩
  · rw [h2] at h
    cases b
    · simp only [Bool.false_eq_true, if_false, Option.some.injEq] at h
      rw [← h]
      simp [NewURLProps]
    · simp at h
  · rw [h2] at h
    simp only [Option.some.injEq] at h
    rw [← h]
    rcases hg1 with rfl | rfl | rfl <;> dsimp only <;> decide

theorem urlLess_asymm (a b : URLProps) (h : urlLess a b = true) : urlLess b a = false :=
  bytesLess_asymm _ _ h

theorem urlLess_negtrans (a b c : URLProps) (h1 : urlLess a b = false)
    (h2 : urlLess b c = false) : urlLess a c = false :=
  bytesLess_negtrans _ _ _ h1 h2

theorem writerCalls_arg {fileType : String} {l : List URLProps} {target : URLProps}
    {call : Writer × List URLProps × URLProps} (h : call ∈ writerCalls fileType l target) :
    call.2.1 = l := by
  unfold writerCalls at h
  split_ifs at h <;> simp at h
  · rcases h with rfl | rfl | rfl <;> rfl
  · rw [h]
  · rw [h]
  · rw [h]

/-- C6 (emission order): for every accepted list and every format code, the list passed to
each serializer called is a rearrangement of the accepted list in which no record comes
before one with a smaller url under byte-wise lexicographic comparison; and each of the
codes a, c, j, t calls a serializer. -/
theorem emission_order (accepted : List URLProps) (target : URLProps) (fileType : String) :
    (∀ call ∈ emit fileType accepted target,
        call.2.1.Perm accepted ∧
          call.2.1.Pairwise (fun r1 r2 => goStringLess r2.Url r1.Url = false)) ∧
      (fileType ∈ ["a", "c", "j", "t"] → emit fileType accepted target ≠ []) := by
  constructor
  · intro call hcall
    rw [writerCalls_arg hcall]
    exact ⟨sortSlice_perm urlLess accepted,
      sortSlice_sorted urlLess urlLess_asymm urlLess_negtrans accepted⟩
  · intro h
    simp only [List.mem_cons, List.mem_singleton, List.not_mem_nil, or_false] at h
    rcases h with rfl | rfl | rfl | rfl <;> simp [emit, writerCalls]

/-- The emission theorem at format code a: two accepted records out of order reach the three
serializers sorted by url. -/
theorem emission_order_witness :
    (emit "a" [⟨"https://example.com/b", "https://", "", "example", ".com", "/b"⟩,
        ⟨"https://example.com/a", "https://", "", "example", ".com", "/a"⟩]
        ⟨"https://example.com", "https://", "", "example", ".com", ""⟩).map
      (fun call => (call.1, call.2.1.map (fun r => r.Url))) =
      [(Writer.WriteCSV, ["https://example.com/a", "https://example.com/b"]),
        (Writer.WriteJSON, ["https://example.com/a", "https://example.com/b"]),
        (Writer.WriteTXT, ["https://example.com/a", "https://example.com/b"])] ∧
    emit "a" [⟨"https://example.com/b", "https://", "", "example", ".com", "/b"⟩,
        ⟨"https://example.com/a", "https://", "", "example", ".com", "/a"⟩]
        ⟨"https://example.com", "https://", "", "example", ".com", ""⟩ ≠ [] :=
  ⟨by decide,
    (emission_order [⟨"https://example.com/b", "https://", "", "example", ".com", "/b"⟩,
        ⟨"https://example.com/a", "https://", "", "example", ".com", "/a"⟩]
        ⟨"https://example.com", "https://", "", "example", ".com", ""⟩ "a").2 (by decide)⟩

/-- C7, the claim as stated fails: with seed https://example.com and the seed url itself
discovered as a link, the handler enqueues the seed url, which then stands twice in the
Pending history. -/
theorem seed_url_enqueued_again :
    ParseURL true (NewURLProps "https://example.com") =
        some ⟨"https://example.com", "https://", "", "example", ".com", ""⟩ ∧
      pendingHistory ⟨"https://example.com", "https://", "", "example", ".com", ""⟩
        ["https://example.com"] = ["https://example.com", "https://example.com"] ∧
      ¬ (pendingHistory ⟨"https://example.com", "https://", "", "example", ".com", ""⟩
        ["https://example.com"]).Nodup := by
  refine ⟨by decide, by decide, by decide⟩

/-- C7 as amended: for every seed and every sequence of discovered links, no url is
enqueued by the handler more than once; so in the Pending history every url other than the
seed url stands at most once, and the seed url at most twice (the initial visit, and once
more when a page links to it). -/
theorem pending_history_bound (seed : URLProps) (links : List String) :
    (crawl seed links).visits.Nodup ∧
      ∀ u, (pendingHistory seed links).count u ≤ if u = seed.Url then 2 else 1 := by
  have hn : (crawl seed links).visits.Nodup := by
    rw [(crawl_inv seed links).2.2]
    exact (crawl_inv seed links).2.1
  refine ⟨hn, fun u => ?_⟩
  have hc := List.nodup_iff_count_le_one.1 hn u
  unfold pendingHistory
  by_cases hu : u = seed.Url
  · subst hu
    simp only [List.count_cons_self, if_true]
    omega
  · have hu2 : (seed.Url == u) = false := by simpa using fun e => hu e.symm
    simp only [List.count_cons, hu, hu2, if_false]
    simpa using hc

/-- C8 (soft parse failure): for every string that the pattern does not match, classifying
a freshly constructed record in non-fatal mode returns the record with its url and every
other field empty, and the handler never appends such a link to the accepted list,
whatever the seed and the state. -/
theorem soft_parse_failure (raw : String) (h : FindStringSubmatch raw = none) :
    ParseURL false (NewURLProps raw) =
        some { Url := raw, Protocol := "", Subdomain := "", Domain := "", TLD := "", Path := "" } ∧
      ∀ (target : URLProps) (st : CrawlState),
        (onHTML target st raw).urlMatches = st.urlMatches := by
  have hp : ParseURL false (NewURLProps raw) = some (NewURLProps raw) := by
    simp [ParseURL, NewURLProps, h]
  refine ⟨hp, fun target st => ?_⟩
  unfold onHTML
  by_cases h1 : raw = ""
  · simp [h1]
  by_cases h2 : raw ∈ st.visited
  · simp [h1, h2]
  simp only [h1, h2, if_false, hp]
  have hadm : admits target (NewURLProps raw) = false := by
    simp [admits, NewURLProps]
  simp [hadm]

/-- The soft-failure theorem at the string "not a url", which the pattern does not match. -/
theorem soft_parse_failure_witness :
    FindStringSubmatch "not a url" = none ∧
      (ParseURL false (NewURLProps "not a url") =
          some { Url := "not a url", Protocol := "", Subdomain := "", Domain := "", TLD := "",
                 Path := "" } ∧
        ∀ (target : URLProps) (st : CrawlState),
          (onHTML target st "not a url").urlMatches = st.urlMatches) :=
  ⟨by decide, soft_parse_failure "not a url" (by decide)⟩

/-- C9 (capture assignment): for every input `[http:// or https://] s "." d t [path]` with
`s` and `d` non-empty labels over `[A-Za-z0-9-]`, `t` one or more dot-prefixed labels of at
least two letters each, and `path` absent or `/` followed by characters of
`[A-Za-z0-9/._-]`, the classifier matches, in either mode, with subdomain `s.`, domain `d`,
tld all of `t` and path `path`. -/
theorem capture_assignment (b : Bool) (proto s d : List Char) (ts : List (List Char))
    (path : List Char)
    (hproto : proto = [] ∨ proto = ['h', 't', 't', 'p', ':', '/', '/'] ∨
      proto = ['h', 't', 't', 'p', 's', ':', '/', '/'])
    (hs : s ≠ []) (hsc : ∀ c ∈ s, isLabelChar c = true)
    (hd : d ≠ []) (hdc : ∀ c ∈ d, isLabelChar c = true)
    (hts : ts ≠ []) (htc : ∀ l ∈ ts, 2 ≤ l.length ∧ ∀ c ∈ l, isAlpha c = true)
    (hpath : path = [] ∨ ∃ p, path = '/' :: p ∧ ∀ c ∈ p, isPathChar c = true) :
    ParseURL b (NewURLProps (String.mk (proto ++ (s ++ '.' :: (d ++ (joinLabels ts ++ path)))))) =
      some { Url := String.mk (proto ++ (s ++ '.' :: (d ++ (joinLabels ts ++ path))))
             Protocol := if proto = [] then "http" else String.mk proto
             Subdomain := String.mk (s ++ ['.'])
             Domain := String.mk d
             TLD := String.mk (joinLabels ts)
             Path := String.mk path } := by
  have hhead := allMatches_head proto s d ts path hproto hs hsc hd hdc hts htc hpath
  rcases ParseURL_cases b
      (NewURLProps (String.mk (proto ++ (s ++ '.' :: (d ++ (joinLabels ts ++ path)))))) with
    ⟨h1, -⟩ | ⟨g1, g2, g3, g4, g5, h1, -, -, h2⟩
  · simp only [NewURLProps] at h1
    rw [hhead] at h1
    exact absurd h1 (by simp)
  · simp only [NewURLProps] at h1
    rw [hhead] at h1
    simp only [Option.some.injEq, List.cons.injEq, and_true] at h1
    obtain ⟨rfl, rfl, rfl, rfl, rfl⟩ := h1
    rw [h2]
    simp only [NewURLProps, mk_eq_empty]

/-- The capture theorem at the seed of scenario S3, http://sub.example.co.za/. -/
theorem capture_assignment_witness :
    ParseURL true (NewURLProps "http://sub.example.co.za/") =
      some ⟨"http://sub.example.co.za/", "http://", "sub.", "example", ".co.za", "/"⟩ :=
  capture_assignment true ['h', 't', 't', 'p', ':', '/', '/'] ['s', 'u', 'b']
    ['e', 'x', 'a', 'm', 'p', 'l', 'e'] [['c', 'o'], ['z', 'a']] ['/']
    (by decide) (by decide) (by decide) (by decide) (by decide) (by decide) (by decide)
    (Or.inr ⟨[], rfl, by decide⟩)

/-- C10 (implicit): for every classification that returns a record, the subdomain field
is empty or ends with "."; so it is never "languagecentre", the guard of line 196 on the
seed's subdomain holds for every seed that `ParseURL(true)` returns, and a first-seen
non-empty link is accepted exactly when its record has a non-empty domain, a non-empty tld
and the seed's domain. -/
theorem subdomain_dot_guard (b : Bool) (raw : String) (seed : URLProps)
    (h : ParseURL b (NewURLProps raw) = some seed) :
    (seed.Subdomain = "" ∨ seed.Subdomain.data.getLast? = some '.') ∧
      seed.Subdomain ≠ "languagecentre" ∧
      (∀ result : URLProps, admits seed result =
        (result.Domain != "" && result.TLD != "" && result.Domain == seed.Domain)) ∧
      ∀ (st : CrawlState) (link : String) (result : URLProps), link ≠ "" →
        link ∉ st.visited → ParseURL false (NewURLProps link) = some result →
        (onHTML seed st link).urlMatches =
          if result.Domain ≠ "" ∧ result.TLD ≠ "" ∧ result.Domain = seed.Domain then
            st.urlMatches ++ [result]
          else st.urlMatches := by
  have hsub : seed.Subdomain = "" ∨ seed.Subdomain.data.getLast? = some '.' := by
    rcases ParseURL_cases b (NewURLProps raw) with ⟨-, h2⟩ | ⟨g1, g2, g3, g4, g5, -, -, hg2, h2⟩
    · rw [h2] at h
      cases b
      · simp only [Bool.false_eq_true, if_false, Option.some.injEq] at h
        left
        rw [← h]
        rfl
      · simp at h
    · rw [h2] at h
      simp only [Option.some.injEq] at h
      rw [← h]
      rcases hg2 with rfl | hg2
      · left; rfl
      · right; exact hg2
  have hne : seed.Subdomain ≠ "languagecentre" := by
    intro e
    rw [e] at hsub
    revert hsub
    decide
  have hadm : ∀ result : URLProps, admits seed result =
      (result.Domain != "" && result.TLD != "" && result.Domain == seed.Domain) := by
    intro result
    have : (seed.Subdomain != "languagecentre") = true := by simpa using hne
    simp [admits, this]
  refine ⟨hsub, hne, hadm, ?_⟩
  intro st link result h1 h2 hp
  unfold onHTML
  simp only [h1, h2, if_false, hp, hadm]
  by_cases hc : result.Domain ≠ "" ∧ result.TLD ≠ "" ∧ result.Domain = seed.Domain
  · have : (result.Domain != "" && result.TLD != "" && result.Domain == seed.Domain) = true := by
      simp only [Bool.and_eq_true, bne_iff_ne, ne_eq, beq_iff_eq]
      exact ⟨⟨hc.1, hc.2.1⟩, hc.2.2⟩
    rw [this, if_pos rfl, if_pos hc]
  · have : (result.Domain != "" && result.TLD != "" && result.Domain == seed.Domain) = false := by
      rw [Bool.eq_false_iff]
      intro e
      simp only [Bool.and_eq_true, bne_iff_ne, ne_eq, beq_iff_eq] at e
      exact hc ⟨e.1.1, e.1.2, e.2⟩
    rw [this, if_neg Bool.false_ne_true, if_neg hc]

/-- The guard theorem at the seed https://languagecentre.example.com: its subdomain is
"languagecentre." with the dot. -/
theorem subdomain_dot_guard_witness :
    ParseURL true (NewURLProps "https://languagecentre.example.com") =
        some ⟨"https://languagecentre.example.com", "https://", "languagecentre.", "example",
          ".com", ""⟩ ∧
      ("languagecentre." = "" ∨ "languagecentre.".data.getLast? = some '.') ∧
      "languagecentre." ≠ "languagecentre" :=
  ⟨by decide,
    (subdomain_dot_guard true "https://languagecentre.example.com"
      ⟨"https://languagecentre.example.com", "https://", "languagecentre.", "example",
        ".com", ""⟩ (by decide)).1,
    (subdomain_dot_guard true "https://languagecentre.example.com"
      ⟨"https://languagecentre.example.com", "https://", "languagecentre.", "example",
        ".com", ""⟩ (by decide)).2.1⟩

end Crawler
